import Mathlib

/-!
Verification of the kj synchronization core (`src/c++/src/kj/mutex.c++`),
futex-based (Linux) implementation plus the Win32 timeout arithmetic.

The C++ is shallowly embedded:
* the 32-bit atomic state word of `kj::_::Mutex` becomes a `Nat` with
  explicit `% 2^32` where the code's unsigned arithmetic can wrap;
* each atomic operation of `lock` / `unlock` becomes either a pure function
  or a constructor of a small-step relation (`Step`), so that interleavings
  of several threads can be quantified over;
* the conditional-wait code (`lockWhen`, the waiter scan inside
  `unlock(EXCLUSIVE)`, and `Once::runOnce`) is embedded as an interpreter of
  the thread-local control flow, with the values that concurrent threads
  store into the shared fields (a `Waiter`'s signal word and captured
  exception, the `Once` state word) supplied by an explicit oracle at each
  linearization point (each atomic load / CAS / exchange of the source).
-/

namespace KjMutex

/-- Layout of the 32-bit mutex state word. Modelled from the spec (the header
`mutex.h` defining these constants is not part of `src/`): bit 31 is
`EXCLUSIVE_HELD`. -/
def EXCLUSIVE_HELD : Nat := 2 ^ 31

/-- Bit 30 of the state word: at least one thread is waiting for exclusive
acquisition. Modelled from the spec (`mutex.h` is not part of `src/`). -/
def EXCLUSIVE_REQUESTED : Nat := 2 ^ 30

/-- Bits 0..29 of the state word: the count of current shared holders.
Modelled from the spec (`mutex.h` is not part of `src/`). -/
def SHARED_COUNT_MASK : Nat := 2 ^ 30 - 1

/-- Bitwise NOT on a 32-bit word: `NOT32 x` models the C `~x` applied to a
`uint` value `x < 2^32`. Since `x` has no bit outside 0..31, subtracting
from the all-ones word flips exactly the bits of `x` (no borrows occur). -/
def NOT32 (x : Nat) : Nat := 2 ^ 32 - 1 - x

/-- The state word decomposes into the exclusive-held bit `e`, the
exclusive-requested bit `r` and the 30-bit shared count `n`. -/
theorem word_decomp (w : Nat) (h : w < 2 ^ 32) :
    ∃ e r n, e ≤ 1 ∧ r ≤ 1 ∧ n < 2 ^ 30 ∧
      w = 2 ^ 31 * e + 2 ^ 30 * r + n := by
  refine ⟨w / 2 ^ 31, w / 2 ^ 30 % 2, w % 2 ^ 30, ?_, ?_, ?_, ?_⟩ <;> omega

theorem testBit30 (e r n : Nat) (hn : n < 2 ^ 30) :
    (2 ^ 31 * e + 2 ^ 30 * r + n).testBit 30 = (2 * e + r).testBit 0 := by
  have h : 2 ^ 31 * e + 2 ^ 30 * r + n = 2 ^ 30 * (2 * e + r) + n := by ring
  rw [h, Nat.testBit_mul_pow_two_add _ hn]
  simp

theorem testBit31 (e r n : Nat) (hn : n < 2 ^ 30) :
    (2 ^ 31 * e + 2 ^ 30 * r + n).testBit 31 = (2 * e + r).testBit 1 := by
  have h : 2 ^ 31 * e + 2 ^ 30 * r + n = 2 ^ 30 * (2 * e + r) + n := by ring
  rw [h, Nat.testBit_mul_pow_two_add _ hn]
  simp

/-- Testing the `EXCLUSIVE_REQUESTED` bit of a decomposed word. -/
theorem land_requested (e r n : Nat) (he : e ≤ 1) (hr : r ≤ 1) (hn : n < 2 ^ 30) :
    (2 ^ 31 * e + 2 ^ 30 * r + n) &&& EXCLUSIVE_REQUESTED = 2 ^ 30 * r := by
  rw [EXCLUSIVE_REQUESTED, Nat.and_two_pow, testBit30 e r n hn]
  rw [Nat.testBit_to_div_mod]
  interval_cases e <;> interval_cases r <;> simp

/-- Testing the `EXCLUSIVE_HELD` bit of a decomposed word. -/
theorem land_held (e r n : Nat) (he : e ≤ 1) (hr : r ≤ 1) (hn : n < 2 ^ 30) :
    (2 ^ 31 * e + 2 ^ 30 * r + n) &&& EXCLUSIVE_HELD = 2 ^ 31 * e := by
  rw [EXCLUSIVE_HELD, Nat.and_two_pow, testBit31 e r n hn]
  rw [Nat.testBit_to_div_mod]
  interval_cases e <;> interval_cases r <;> simp

/-- Masking a decomposed word with `SHARED_COUNT_MASK` extracts the count. -/
theorem land_mask (e r n : Nat) (hn : n < 2 ^ 30) :
    (2 ^ 31 * e + 2 ^ 30 * r + n) &&& SHARED_COUNT_MASK = n := by
  have h : SHARED_COUNT_MASK = 2 ^ 30 - 1 := rfl
  rw [h, Nat.and_pow_two_sub_one_eq_mod]
  omega

/-- Bitwise or distributes over splitting a word at bit position `k`. -/
theorem or_mul_pow_two_add (k a b c d : Nat) (hb : b < 2 ^ k) (hd : d < 2 ^ k) :
    (2 ^ k * a + b) ||| (2 ^ k * c + d) = 2 ^ k * (a ||| c) + (b ||| d) := by
  apply Nat.eq_of_testBit_eq
  intro i
  have hbd : b ||| d < 2 ^ k := Nat.or_lt_two_pow hb hd
  rw [Nat.testBit_or, Nat.testBit_mul_pow_two_add _ hb, Nat.testBit_mul_pow_two_add _ hd,
    Nat.testBit_mul_pow_two_add _ hbd]
  by_cases hi : i < k
  · simp [hi]
  · simp [hi]

/-- Setting the `EXCLUSIVE_REQUESTED` bit when it is clear adds `2^30`. -/
theorem lor_requested (e n : Nat) (he : e ≤ 1) (hn : n < 2 ^ 30) :
    (2 ^ 31 * e + n) ||| EXCLUSIVE_REQUESTED = 2 ^ 31 * e + 2 ^ 30 + n := by
  have h1 : 2 ^ 31 * e + n = 2 ^ 30 * (2 * e) + n := by ring
  have h2 : EXCLUSIVE_REQUESTED = 2 ^ 30 * 1 + 0 := rfl
  rw [h1, h2, or_mul_pow_two_add 30 (2 * e) n 1 0 hn (by norm_num)]
  have h3 : 2 * e ||| 1 = 2 * e + 1 := by interval_cases e <;> decide
  have h4 : n ||| 0 = n := Nat.or_zero n
  rw [h3, h4]
  ring

/-! ### Waiters and `Mutex::checkPredicate`

A `Waiter` record (`mutex.h` struct, used by `mutex.c++`): the predicate is
modelled by the outcome its `check()` call would produce at this invocation,
the captured exception by an `Option`, and the per-waiter futex signal word
by a `Nat` (`0` = not signaled, `1` = signaled / ownership transferred). -/

/-- Exceptions are opaque tokens. -/
abbrev Exn := Nat

/-- Outcome of invoking a predicate closure: a boolean result, or a thrown
exception (caught by `kj::runCatchingExceptions` in `checkPredicate`). -/
inductive PredResult where
  | ok (b : Bool)
  | throws (e : Exn)
deriving DecidableEq, Repr

/-- The `Waiter` record as seen by a signaling thread. -/
structure Waiter where
  pred : PredResult
  exception : Option Exn
  hasTimeout : Bool
  signal : Nat
deriving DecidableEq, Repr

/-- Result of `Mutex::checkPredicate`: whether to signal the waiter, the
updated waiter record, and whether the predicate closure was invoked. -/
structure CheckResult where
  ready : Bool
  waiter : Waiter
  invoked : Bool
deriving DecidableEq, Repr

/-- `Mutex::checkPredicate(Waiter&)` (mutex.c++ lines 74-90): if an exception
is already captured, report ready without running the predicate again;
otherwise run the predicate, and on a throw capture the exception and
report ready. -/
def checkPredicate (w : Waiter) : CheckResult :=
  if w.exception.isSome then ⟨true, w, false⟩
  else
    match w.pred with
    | .ok b => ⟨b, w, true⟩
    | .throws e => ⟨true, { w with exception := some e }, true⟩

theorem checkPredicate_signal (w : Waiter) : (checkPredicate w).waiter.signal = w.signal := by
  unfold checkPredicate
  split
  · rfl
  · cases w.pred <;> rfl

theorem checkPredicate_hasTimeout (w : Waiter) :
    (checkPredicate w).waiter.hasTimeout = w.hasTimeout := by
  unfold checkPredicate
  split
  · rfl
  · cases w.pred <;> rfl

/-! ### The waiter scan of `Mutex::unlock(EXCLUSIVE)` (futex) -/

/-- Result of the conditional-waiter scan: the index (in the scanned list) of
the waiter that was signaled and woken, if any, plus the updated records. -/
structure ScanRes where
  handoff : Option Nat
  waiters : List Waiter
deriving DecidableEq, Repr

/-- The waiter scan of `Mutex::unlock(EXCLUSIVE)` (mutex.c++ lines 176-214):
walk the list from the head; for each waiter run `checkPredicate`; when it
reports ready, either CAS the signal word from 0 to 1 (timeout waiters,
skipping the waiter and continuing the scan if the CAS fails because the
waiter already timed out) or store 1 unconditionally, then wake that waiter
and stop. -/
def scanWaiters : List Waiter → ScanRes
  | [] => ⟨none, []⟩
  | w :: rest =>
    let c := checkPredicate w
    if c.ready then
      if c.waiter.hasTimeout then
        if c.waiter.signal = 0 then
          ⟨some 0, { c.waiter with signal := 1 } :: rest⟩
        else
          let s := scanWaiters rest
          ⟨s.handoff.map (· + 1), c.waiter :: s.waiters⟩
      else
        ⟨some 0, { c.waiter with signal := 1 } :: rest⟩
    else
      let s := scanWaiters rest
      ⟨s.handoff.map (· + 1), c.waiter :: s.waiters⟩

/-- Result of `Mutex::unlock(EXCLUSIVE)`: the state word after the call, the
updated waiter list, which waiter (if any) the lock was handed to, and
whether a wake-all was issued on the state word. -/
structure UnlockExRes where
  word : Nat
  waiters : List Waiter
  handoff : Option Nat
  wokeAllOnState : Bool
deriving DecidableEq, Repr

/-- `Mutex::unlock(EXCLUSIVE)` (mutex.c++ lines 171-228): scan the waiter
list; if a waiter was signaled, return without touching the state word
(ownership transferred). Otherwise `fetch_and` the state word with
`~(EXCLUSIVE_HELD | EXCLUSIVE_REQUESTED)` and wake all threads waiting on
the state word iff the pre-image had a bit set outside `EXCLUSIVE_HELD`. -/
def unlockExclusive (word : Nat) (ws : List Waiter) : UnlockExRes :=
  let s := scanWaiters ws
  match s.handoff with
  | some i => ⟨word, s.waiters, some i, false⟩
  | none =>
    ⟨word &&& NOT32 (EXCLUSIVE_HELD ||| EXCLUSIVE_REQUESTED), s.waiters, none,
      decide (word &&& NOT32 EXCLUSIVE_HELD ≠ 0)⟩

/-! ### `Mutex::unlock(SHARED)` (futex) -/

/-- Result of `Mutex::unlock(SHARED)`: the value produced by the atomic
decrement, whether the follow-up CAS was attempted and whether it succeeded,
the value this thread stored by that CAS (if any), and whether a wake-all
was issued on the state word. -/
structure UnlockShRes where
  dec : Nat
  casAttempted : Bool
  casSucceeded : Bool
  stored : Option Nat
  wokeAll : Bool
deriving DecidableEq, Repr

/-- `Mutex::unlock(SHARED)` (mutex.c++ lines 230-245): `sub_fetch` the state
word by 1 (32-bit wraparound made explicit); only if the result equals
exactly `EXCLUSIVE_REQUESTED`, CAS the word from that value to 0, and only
on CAS success wake all threads waiting on the state word. `casView` is the
value of the state word at the moment of the CAS (another thread may have
changed it after the decrement). -/
def unlockShared (word : Nat) (casView : Nat) : UnlockShRes :=
  let s := (word + (2 ^ 32 - 1)) % 2 ^ 32
  if s = EXCLUSIVE_REQUESTED then
    if casView = s then ⟨s, true, true, some 0, true⟩
    else ⟨s, true, false, none, false⟩
  else ⟨s, false, false, none, false⟩

/-! ### `Mutex::lockWhen` (futex), waiting-thread control flow

The waiting thread's own control flow (mutex.c++ lines 262-347) is embedded
as an interpreter. The shared fields of its `Waiter` (the signal word and
the captured exception) are written by concurrent unlocking threads; the
values those threads have made visible at each of the waiting thread's
atomic operations are supplied by a `LoopEvent` oracle, one event per
iteration of the futex-wait loop. -/

/-- One iteration of the futex wait loop of `lockWhen`: the syscall outcome
(ETIMEDOUT, or any of success / EAGAIN / spurious wake), the value of the
waiter's signal word observed by the timeout CAS, the value observed by the
subsequent acquire load, and the captured-exception field visible when a
transfer is observed. -/
structure LoopEvent where
  timedOut : Bool
  signalAtCas : Nat
  signalAtLoad : Nat
  excAtLoad : Option Exn
deriving DecidableEq, Repr

/-- Observable result of a `lockWhen` call. `lockedAtExit` is whether the
caller holds the exclusive lock when control returns to it (after the
`KJ_ON_SCOPE_FAILURE` handler has run on the exceptional path). -/
structure LWResult where
  raised : Option Exn
  lockedAtExit : Bool
  waiterAdded : Bool
  waiterRemoved : Bool
  waited : Bool
  selfAcquired : Bool
  viaTransfer : Bool
deriving DecidableEq, Repr

/-- The futex wait loop of `lockWhen` (mutex.c++ lines 290-345). On
ETIMEDOUT (only legal with a timeout; `KJ_ASSERT` otherwise, modelled as
`none`), CAS the own signal word from 0 to 1: success means no transfer
happened, so re-acquire the lock and return (the exception field is not
consulted on this path); failure falls through to the load. If the load of
the signal word is non-zero, ownership was transferred: re-raise a captured
exception (the scope handlers remove the waiter and unlock) or return
holding the lock; otherwise the wake was spurious and the loop re-enters. -/
def lockWhenWait (hasTimeout : Bool) : List LoopEvent → Option LWResult
  | [] => none
  | ev :: rest =>
    if ev.timedOut && !hasTimeout then none
    else if ev.timedOut && decide (ev.signalAtCas = 0) then
      some ⟨none, true, true, true, true, true, false⟩
    else if ev.signalAtLoad ≠ 0 then
      match ev.excAtLoad with
      | some e => some ⟨some e, false, true, true, true, false, true⟩
      | none => some ⟨none, true, true, true, true, false, true⟩
    else lockWhenWait hasTimeout rest

/-- `Mutex::lockWhen` (futex, mutex.c++ lines 262-347): acquire the
exclusive lock, append a `Waiter` to the list, then check the predicate.
`firstCheck` is the outcome of that first `predicate.check()` call: a throw
propagates (unwinding removes the waiter and releases the lock), `true`
returns immediately still holding the lock, `false` releases the lock and
enters the futex wait loop. -/
def lockWhen (firstCheck : PredResult) (hasTimeout : Bool)
    (events : List LoopEvent) : Option LWResult :=
  match firstCheck with
  | .throws e => some ⟨some e, false, true, true, false, false, false⟩
  | .ok true => some ⟨none, true, true, true, false, false, false⟩
  | .ok false => lockWhenWait hasTimeout events

/-! ### `Once::runOnce` (futex)

The four state-word values are modelled from the spec (the enum lives in
`mutex.h`, which is not part of `src/`): `uninitialized`, `initializing`,
`initializing-with-waiters`, `initialized`, in declaration order. -/

def UNINITIALIZED : Nat := 0
def INITIALIZING : Nat := 1
def INITIALIZING_WITH_WAITERS : Nat := 2
def INITIALIZED : Nat := 3

/-- Outcome of running the initializer closure. -/
inductive InitOutcome where
  | success
  | fault (e : Exn)
deriving DecidableEq, Repr

/-- Observable result of a `runOnce` call: the re-raised fault if any,
whether this thread ran the initializer, whether its final exchange issued
a wake-all, the value it stored into the state word, and how many times the
protocol restarted from the top (`goto startOver`). -/
structure OnceResult where
  raised : Option Exn
  ranInit : Bool
  wokeAll : Bool
  stored : Option Nat
  restarts : Nat
deriving DecidableEq, Repr

/-- Control position inside `runOnce`: at the initial CAS, or inside the
waiter loop with the last observed state-word value. -/
inductive OnceMode where
  | start
  | waiter (state : Nat)
deriving DecidableEq, Repr

/-- `Once::runOnce` (futex, mutex.c++ lines 362-411). `obs` supplies the
state-word value observed at each successive atomic operation (initial CAS,
exchange pre-image, weak CAS, post-wait reload); interference by other
threads is unconstrained. In `.start`: CAS `UNINITIALIZED → INITIALIZING`;
on success run the initializer and exchange the word to `INITIALIZED`
(success) or back to `UNINITIALIZED` (fault, re-raised), waking all iff the
exchange pre-image was `INITIALIZING_WITH_WAITERS`. On CAS failure enter the
waiter loop: return if `INITIALIZED`; if `INITIALIZING`, weak-CAS it to
`INITIALIZING_WITH_WAITERS` (retrying the loop on failure) and wait, else
(`KJ_DASSERT` the state, debug-only) wait directly; after a wait, reload:
`UNINITIALIZED` means the initializer faulted, so restart from the top. -/
def runOnce (init : InitOutcome) (m : OnceMode) (obs : List Nat) : Option OnceResult :=
  match m, obs with
  | .start, [] => none
  | .start, observed :: rest =>
    if observed = UNINITIALIZED then
      match init, rest with
      | _, [] => none
      | .success, pre :: _ =>
        some ⟨none, true, decide (pre = INITIALIZING_WITH_WAITERS), some INITIALIZED, 0⟩
      | .fault e, pre :: _ =>
        some ⟨some e, true, decide (pre = INITIALIZING_WITH_WAITERS), some UNINITIALIZED, 0⟩
    else runOnce init (.waiter observed) rest
  | .waiter s, obs =>
    if s = INITIALIZED then some ⟨none, false, false, none, 0⟩
    else if s = INITIALIZING then
      match obs with
      | [] => none
      | cur :: rest =>
        if cur = INITIALIZING then
          match rest with
          | [] => none
          | cur2 :: rest2 =>
            if cur2 = UNINITIALIZED then
              (runOnce init .start rest2).map fun r => { r with restarts := r.restarts + 1 }
            else runOnce init (.waiter cur2) rest2
        else runOnce init (.waiter cur) rest
    else
      match obs with
      | [] => none
      | cur :: rest =>
        if cur = UNINITIALIZED then
          (runOnce init .start rest).map fun r => { r with restarts := r.restarts + 1 }
        else runOnce init (.waiter cur) rest

/-! ### Win32 `lockWhen` sleep arithmetic (mutex.c++ lines 492-575)

`t` is the timeout as a count of nanoseconds (`kj::Duration` granularity);
`kj::MILLISECONDS` is `1000000` of them. The stores into the `DWORD`
`sleepMs` truncate to 32 bits. -/

/-- Initial sleep computation (lines 513-519): `sleepMs = *t /
kj::MILLISECONDS`, incremented when the timeout has a fractional
millisecond. -/
def initialSleepMs (t : Nat) : Nat :=
  (t / 1000000 + if t % 1000000 > 0 then 1 else 0) % 2 ^ 32

/-- Absolute end time in performance-counter ticks (lines 523-530):
`endTime += (t / kj::MILLISECONDS * frequency) / 1000`, incremented when
that division has a remainder. (Overflow of the signed 64-bit
intermediate is undefined behaviour in the source and is not modelled.) -/
def endTimeTicks (t freq startQ : Nat) : Nat :=
  let numerator := t / 1000000 * freq
  startQ + numerator / 1000 + if numerator % 1000 > 0 then 1 else 0

/-- Sleep recomputation after a wake (lines 557-573): if the end time has
not been reached, `sleepMs = ((endTime - now) * 1000) / frequency`,
incremented when the division has a remainder; otherwise (`none`) the code
returns immediately ("Oops, already timed out"). -/
def recomputeSleepMs (endQ nowQ freq : Nat) : Option Nat :=
  if endQ > nowQ then
    let numerator := (endQ - nowQ) * 1000
    some ((numerator / freq + if numerator % freq > 0 then 1 else 0) % 2 ^ 32)
  else none

/-! ### Interleaved semantics of `lock` / `unlock` (futex)

A small-step system over the shared 32-bit state word and the control
positions of finitely many threads, whose steps are exactly the atomic
operations of `Mutex::lock(EXCLUSIVE)`, `Mutex::lock(SHARED)`,
`Mutex::unlock(EXCLUSIVE)` (with no conditional waiters present, so the
scan falls through to the release) and `Mutex::unlock(SHARED)`
(mutex.c++ lines 126-166 and 169-246). Futex waits and failed CASes do not
change shared state and are elided. -/

/-- Control position of one thread with respect to this mutex. -/
inductive TS where
  | idle
  /-- inside `lock(EXCLUSIVE)`, before a successful acquire CAS -/
  | exWait
  /-- holding the lock exclusively -/
  | exHold
  /-- inside `lock(SHARED)`, before the unconditional increment -/
  | shEntry
  /-- incremented the shared count but observed `EXCLUSIVE_HELD` set -/
  | shWait
  /-- holding the lock shared -/
  | shHold
  /-- inside `unlock(SHARED)`, after the decrement that produced `obs` -/
  | shRelease (obs : Nat)
deriving DecidableEq, Repr

/-- A configuration: the shared state word plus every thread's position. -/
structure Cfg where
  word : Nat
  threads : List TS
deriving DecidableEq, Repr

/-- The mutex as constructed: state word 0, all threads outside. -/
def init (n : Nat) : Cfg := ⟨0, List.replicate n .idle⟩

/-- One atomic step of some thread `i`. Each constructor mirrors one atomic
operation of the futex implementation. -/
inductive Step : Cfg → Cfg → Prop where
  /-- a thread enters `lock(EXCLUSIVE)` -/
  | startEx (c : Cfg) (i : Nat) (hi : c.threads.get? i = some .idle) :
      Step c ⟨c.word, c.threads.set i .exWait⟩
  /-- line 131: the acquire CAS from 0 to `EXCLUSIVE_HELD` succeeds -/
  | exCas (c : Cfg) (i : Nat) (hi : c.threads.get? i = some .exWait)
      (hw : c.word = 0) :
      Step c ⟨EXCLUSIVE_HELD, c.threads.set i .exHold⟩
  /-- line 139: the CAS that sets `EXCLUSIVE_REQUESTED` succeeds (it is only
  attempted when the observed word is non-zero with the bit clear) -/
  | exReq (c : Cfg) (i : Nat) (hi : c.threads.get? i = some .exWait)
      (h0 : c.word ≠ 0) (hr : c.word &&& EXCLUSIVE_REQUESTED = 0) :
      Step c ⟨c.word ||| EXCLUSIVE_REQUESTED, c.threads⟩
  /-- a thread enters `lock(SHARED)` -/
  | startSh (c : Cfg) (i : Nat) (hi : c.threads.get? i = some .idle) :
      Step c ⟨c.word, c.threads.set i .shEntry⟩
  /-- line 152: the unconditional `add_fetch`; the acquirer holds the lock
  iff the resulting word has `EXCLUSIVE_HELD` clear (line 154) -/
  | shIncr (c : Cfg) (i : Nat) (hi : c.threads.get? i = some .shEntry) :
      Step c ⟨(c.word + 1) % 2 ^ 32,
        c.threads.set i
          (if (c.word + 1) % 2 ^ 32 &&& EXCLUSIVE_HELD = 0 then .shHold else .shWait)⟩
  /-- lines 161-162: an over-registered shared acquirer reloads the word and
  acquires once `EXCLUSIVE_HELD` is clear -/
  | shWake (c : Cfg) (i : Nat) (hi : c.threads.get? i = some .shWait)
      (hw : c.word &&& EXCLUSIVE_HELD = 0) :
      Step c ⟨c.word, c.threads.set i .shHold⟩
  /-- lines 217-218: `unlock(EXCLUSIVE)` with no waiter signaled clears
  `EXCLUSIVE_HELD` and `EXCLUSIVE_REQUESTED` by one `fetch_and` -/
  | unEx (c : Cfg) (i : Nat) (hi : c.threads.get? i = some .exHold) :
      Step c ⟨c.word &&& NOT32 (EXCLUSIVE_HELD ||| EXCLUSIVE_REQUESTED),
        c.threads.set i .idle⟩
  /-- line 232: the `sub_fetch` of `unlock(SHARED)` (32-bit wraparound
  explicit); the thread remembers the decremented value -/
  | unShDecr (c : Cfg) (i : Nat) (hi : c.threads.get? i = some .shHold) :
      Step c ⟨(c.word + (2 ^ 32 - 1)) % 2 ^ 32,
        c.threads.set i (.shRelease ((c.word + (2 ^ 32 - 1)) % 2 ^ 32))⟩
  /-- lines 236-241: the decrement produced exactly `EXCLUSIVE_REQUESTED`
  and the CAS to 0 succeeds (wake-all follows; no state change) -/
  | unShCasOk (c : Cfg) (i : Nat) (obs : Nat)
      (hi : c.threads.get? i = some (.shRelease obs))
      (ho : obs = EXCLUSIVE_REQUESTED) (hw : c.word = obs) :
      Step c ⟨0, c.threads.set i .idle⟩
  /-- lines 236-241: the CAS was attempted but another thread changed the
  word first; no wake, return -/
  | unShCasFail (c : Cfg) (i : Nat) (obs : Nat)
      (hi : c.threads.get? i = some (.shRelease obs))
      (ho : obs = EXCLUSIVE_REQUESTED) (hw : c.word ≠ obs) :
      Step c ⟨c.word, c.threads.set i .idle⟩
  /-- line 236: the decrement did not produce `EXCLUSIVE_REQUESTED`; return
  without attempting a CAS -/
  | unShDone (c : Cfg) (i : Nat) (obs : Nat)
      (hi : c.threads.get? i = some (.shRelease obs))
      (ho : obs ≠ EXCLUSIVE_REQUESTED) :
      Step c ⟨c.word, c.threads.set i .idle⟩

/-- Reachability by interleaved atomic steps. -/
def Reach : Cfg → Cfg → Prop := Relation.ReflTransGen Step

/-- Replacing element `i` (known to be `a`) by `x` changes each value's
multiplicity by the obvious amount. -/
theorem count_set_eq (l : List TS) (i : Nat) (a x y : TS) (h : l.get? i = some a) :
    (l.set i x).count y + (if a = y then 1 else 0) =
      l.count y + (if x = y then 1 else 0) := by
  induction l generalizing i with
  | nil => simp at h
  | cons hd tl ih =>
    cases i with
    | zero =>
      rw [List.get?_cons_zero] at h
      obtain rfl : hd = a := by injection h
      rw [List.set_cons_zero, List.count_cons, List.count_cons]
      simp only [beq_iff_eq]
      omega
    | succ n =>
      rw [List.get?_cons_succ] at h
      have hnext := ih n h
      rw [List.set_cons_succ, List.count_cons, List.count_cons]
      omega

/-- The three shared-side positions are disjoint, so their multiplicities
sum to at most the number of threads. -/
theorem counts_le_length (l : List TS) :
    l.count .shWait + l.count .shHold + l.count .shEntry ≤ l.length := by
  induction l with
  | nil => simp
  | cons hd tl ih =>
    simp only [List.count_cons, beq_iff_eq, List.length_cons]
    cases hd <;> simp <;> omega

/-- The inductive invariant of the interleaved semantics: the state word is
exactly `EXCLUSIVE_HELD` times the number of exclusive holders, plus
possibly `EXCLUSIVE_REQUESTED`, plus one for every thread that has passed
the `lock(SHARED)` increment and not yet decremented (waiting
over-registered acquirers and actual shared holders alike); there is at
most one exclusive holder, and an exclusive holder excludes shared
holders. -/
def Inv (c : Cfg) : Prop :=
  c.threads.length < 2 ^ 30 ∧
  ∃ r, r ≤ 1 ∧
    c.word = 2 ^ 31 * c.threads.count .exHold + 2 ^ 30 * r +
      (c.threads.count .shWait + c.threads.count .shHold) ∧
    c.threads.count .exHold ≤ 1 ∧
    (c.threads.count .exHold = 1 → c.threads.count .shHold = 0)

theorem inv_init (n : Nat) (h : n < 2 ^ 30) : Inv (init n) := by
  refine ⟨by simpa [init] using h, 0, by omega, ?_, ?_, ?_⟩ <;>
    simp [init, List.count_replicate]

theorem inv_step {c d : Cfg} (hc : Inv c) (h : Step c d) : Inv d := by
  obtain ⟨hlen, r, hr1, hword, hE, hES⟩ := hc
  have hsum := counts_le_length c.threads
  cases h with
  | startEx i hi =>
    have h1 := count_set_eq c.threads i .idle .exWait .exHold hi
    have h2 := count_set_eq c.threads i .idle .exWait .shWait hi
    have h3 := count_set_eq c.threads i .idle .exWait .shHold hi
    simp at h1 h2 h3
    refine ⟨by simpa using hlen, r, hr1, ?_, ?_, ?_⟩ <;> simp only [] <;> omega
  | exCas i hi hw =>
    have h1 := count_set_eq c.threads i .exWait .exHold .exHold hi
    have h2 := count_set_eq c.threads i .exWait .exHold .shWait hi
    have h3 := count_set_eq c.threads i .exWait .exHold .shHold hi
    simp at h1 h2 h3
    have hEH : EXCLUSIVE_HELD = 2 ^ 31 := rfl
    refine ⟨by simpa using hlen, 0, by omega, ?_, ?_, ?_⟩ <;>
      simp only [hEH] <;> omega
  | exReq i hi h0 hrq =>
    have hn : c.threads.count .shWait + c.threads.count .shHold < 2 ^ 30 := by omega
    have hl := land_requested (c.threads.count .exHold) r
      (c.threads.count .shWait + c.threads.count .shHold) hE hr1 hn
    rw [← hword] at hl
    rw [hl] at hrq
    have hr0 : r = 0 := by omega
    have hword0 : c.word = 2 ^ 31 * c.threads.count .exHold +
        (c.threads.count .shWait + c.threads.count .shHold) := by omega
    have hlor := lor_requested (c.threads.count .exHold)
      (c.threads.count .shWait + c.threads.count .shHold) hE hn
    refine ⟨by simpa using hlen, 1, by omega, ?_, ?_, ?_⟩ <;> simp only []
    · rw [hword0, hlor]; ring
    · omega
    · omega
  | startSh i hi =>
    have h1 := count_set_eq c.threads i .idle .shEntry .exHold hi
    have h2 := count_set_eq c.threads i .idle .shEntry .shWait hi
    have h3 := count_set_eq c.threads i .idle .shEntry .shHold hi
    simp at h1 h2 h3
    refine ⟨by simpa using hlen, r, hr1, ?_, ?_, ?_⟩ <;> simp only [] <;> omega
  | shIncr i hi =>
    have hmemE : TS.shEntry ∈ c.threads := List.get?_mem hi
    have hposE : 0 < c.threads.count .shEntry := List.count_pos_iff.mpr hmemE
    have hn1 : c.threads.count .shWait + c.threads.count .shHold + 1 < 2 ^ 30 := by omega
    have hmod : (c.word + 1) % 2 ^ 32 = c.word + 1 := by
      apply Nat.mod_eq_of_lt; omega
    have hplus : c.word + 1 = 2 ^ 31 * c.threads.count .exHold + 2 ^ 30 * r +
        (c.threads.count .shWait + c.threads.count .shHold + 1) := by omega
    have hland : (c.word + 1) &&& EXCLUSIVE_HELD = 2 ^ 31 * c.threads.count .exHold := by
      rw [hplus]
      exact land_held _ _ _ hE hr1 hn1
    by_cases hce : c.threads.count .exHold = 0
    · have hcond : c.word + 1 &&& EXCLUSIVE_HELD = 0 := by
        rw [hland, hce]; ring
      rw [hmod, if_pos hcond]
      have h1 := count_set_eq c.threads i .shEntry .shHold .exHold hi
      have h2 := count_set_eq c.threads i .shEntry .shHold .shWait hi
      have h3 := count_set_eq c.threads i .shEntry .shHold .shHold hi
      simp at h1 h2 h3
      refine ⟨by simpa using hlen, r, hr1, ?_, ?_, ?_⟩ <;> simp only [] <;> omega
    · have hcond : ¬ (c.word + 1 &&& EXCLUSIVE_HELD = 0) := by
        rw [hland]
        omega
      rw [hmod, if_neg hcond]
      have h1 := count_set_eq c.threads i .shEntry .shWait .exHold hi
      have h2 := count_set_eq c.threads i .shEntry .shWait .shWait hi
      have h3 := count_set_eq c.threads i .shEntry .shWait .shHold hi
      simp at h1 h2 h3
      refine ⟨by simpa using hlen, r, hr1, ?_, ?_, ?_⟩ <;> simp only [] <;> omega
  | shWake i hi hw =>
    have hn : c.threads.count .shWait + c.threads.count .shHold < 2 ^ 30 := by omega
    have hland := land_held (c.threads.count .exHold) r
      (c.threads.count .shWait + c.threads.count .shHold) hE hr1 hn
    rw [← hword] at hland
    rw [hland] at hw
    have hce : c.threads.count .exHold = 0 := by omega
    have h1 := count_set_eq c.threads i .shWait .shHold .exHold hi
    have h2 := count_set_eq c.threads i .shWait .shHold .shWait hi
    have h3 := count_set_eq c.threads i .shWait .shHold .shHold hi
    simp at h1 h2 h3
    refine ⟨by simpa using hlen, r, hr1, ?_, ?_, ?_⟩ <;> simp only [] <;> omega
  | unEx i hi =>
    have hmemE : TS.exHold ∈ c.threads := List.get?_mem hi
    have hposE : 0 < c.threads.count .exHold := List.count_pos_iff.mpr hmemE
    have hce : c.threads.count .exHold = 1 := by omega
    have hch : c.threads.count .shHold = 0 := hES hce
    have hn : c.threads.count .shWait + c.threads.count .shHold < 2 ^ 30 := by omega
    have hmask : NOT32 (EXCLUSIVE_HELD ||| EXCLUSIVE_REQUESTED) = SHARED_COUNT_MASK := by decide
    have hland : c.word &&& NOT32 (EXCLUSIVE_HELD ||| EXCLUSIVE_REQUESTED) =
        c.threads.count .shWait + c.threads.count .shHold := by
      rw [hmask, hword]
      exact land_mask _ _ _ hn
    have h1 := count_set_eq c.threads i .exHold .idle .exHold hi
    have h2 := count_set_eq c.threads i .exHold .idle .shWait hi
    have h3 := count_set_eq c.threads i .exHold .idle .shHold hi
    simp at h1 h2 h3
    refine ⟨by simpa using hlen, 0, by omega, ?_, ?_, ?_⟩ <;> simp only [hland] <;> omega
  | unShDecr i hi =>
    have hmemH : TS.shHold ∈ c.threads := List.get?_mem hi
    have hposH : 0 < c.threads.count .shHold := List.count_pos_iff.mpr hmemH
    have hce : c.threads.count .exHold = 0 := by
      rcases Nat.eq_zero_or_pos (c.threads.count .exHold) with h | h
      · exact h
      · exact absurd (hES (by omega)) (by omega)
    have hdec : (c.word + (2 ^ 32 - 1)) % 2 ^ 32 = c.word - 1 := by omega
    have h1 := count_set_eq c.threads i .shHold
      (.shRelease ((c.word + (2 ^ 32 - 1)) % 2 ^ 32)) .exHold hi
    have h2 := count_set_eq c.threads i .shHold
      (.shRelease ((c.word + (2 ^ 32 - 1)) % 2 ^ 32)) .shWait hi
    have h3 := count_set_eq c.threads i .shHold
      (.shRelease ((c.word + (2 ^ 32 - 1)) % 2 ^ 32)) .shHold hi
    rw [hdec] at h1 h2 h3
    simp at h1 h2 h3
    refine ⟨by simpa using hlen, r, hr1, ?_, ?_, ?_⟩ <;> simp only [hdec] <;> omega
  | unShCasOk i obs hi ho hw =>
    have hERv : EXCLUSIVE_REQUESTED = 2 ^ 30 := rfl
    have h1 := count_set_eq c.threads i (.shRelease obs) .idle .exHold hi
    have h2 := count_set_eq c.threads i (.shRelease obs) .idle .shWait hi
    have h3 := count_set_eq c.threads i (.shRelease obs) .idle .shHold hi
    simp at h1 h2 h3
    have hwv : c.word = 2 ^ 30 := by rw [hw, ho, hERv]
    have hn : c.threads.count .shWait + c.threads.count .shHold < 2 ^ 30 := by omega
    refine ⟨by simpa using hlen, 0, by omega, ?_, ?_, ?_⟩ <;> simp only [] <;> omega
  | unShCasFail i obs hi ho hw =>
    have h1 := count_set_eq c.threads i (.shRelease obs) .idle .exHold hi
    have h2 := count_set_eq c.threads i (.shRelease obs) .idle .shWait hi
    have h3 := count_set_eq c.threads i (.shRelease obs) .idle .shHold hi
    simp at h1 h2 h3
    refine ⟨by simpa using hlen, r, hr1, ?_, ?_, ?_⟩ <;> simp only [] <;> omega
  | unShDone i obs hi ho =>
    have h1 := count_set_eq c.threads i (.shRelease obs) .idle .exHold hi
    have h2 := count_set_eq c.threads i (.shRelease obs) .idle .shWait hi
    have h3 := count_set_eq c.threads i (.shRelease obs) .idle .shHold hi
    simp at h1 h2 h3
    refine ⟨by simpa using hlen, r, hr1, ?_, ?_, ?_⟩ <;> simp only [] <;> omega

/-- Every reachable configuration satisfies the invariant. -/
theorem inv_reach {n : Nat} {c : Cfg} (hn : n < 2 ^ 30) (h : Reach (init n) c) : Inv c := by
  induction h with
  | refl => exact inv_init n hn
  | tail _ hstep ih => exact inv_step ih hstep

/-! ### Claim C1 -/

/-- Claim C1 counterexample: the claimed state-word invariant (`SHARED_COUNT > 0`
implies `EXCLUSIVE_HELD` clear, and conversely) does **not** hold after
every step of the four operations. `lock(SHARED)` increments the word
unconditionally (mutex.c++ line 152), so with an exclusive holder present
the reachable word `EXCLUSIVE_HELD + 1` has both a positive shared count
and the exclusive bit set. Schedule: thread 0 runs `lock(EXCLUSIVE)` to
completion, thread 1 executes the increment of `lock(SHARED)`. -/
theorem c1_counterexample :
    ¬ (∀ c : Cfg, Reach (init 2) c →
        (0 < c.word &&& SHARED_COUNT_MASK → c.word &&& EXCLUSIVE_HELD = 0) ∧
        (c.word &&& EXCLUSIVE_HELD ≠ 0 → c.word &&& SHARED_COUNT_MASK = 0)) := by
  intro hclaim
  have s1 : Step (init 2) ⟨0, [TS.exWait, TS.idle]⟩ :=
    Step.startEx (init 2) 0 (by decide)
  have s2 : Step ⟨0, [TS.exWait, TS.idle]⟩ ⟨EXCLUSIVE_HELD, [TS.exHold, TS.idle]⟩ :=
    Step.exCas _ 0 (by decide) rfl
  have s3 : Step ⟨EXCLUSIVE_HELD, [TS.exHold, TS.idle]⟩
      ⟨EXCLUSIVE_HELD, [TS.exHold, TS.shEntry]⟩ :=
    Step.startSh _ 1 (by decide)
  have s4 : Step ⟨EXCLUSIVE_HELD, [TS.exHold, TS.shEntry]⟩
      ⟨EXCLUSIVE_HELD + 1, [TS.exHold, TS.shWait]⟩ := by
    have h := Step.shIncr ⟨EXCLUSIVE_HELD, [TS.exHold, TS.shEntry]⟩ 1 (by decide)
    have e : (⟨((Cfg.mk EXCLUSIVE_HELD [TS.exHold, TS.shEntry]).word + 1) % 2 ^ 32,
        (Cfg.mk EXCLUSIVE_HELD [TS.exHold, TS.shEntry]).threads.set 1
          (if ((Cfg.mk EXCLUSIVE_HELD [TS.exHold, TS.shEntry]).word + 1) % 2 ^ 32 &&&
              EXCLUSIVE_HELD = 0 then TS.shHold else TS.shWait)⟩ : Cfg) =
        ⟨EXCLUSIVE_HELD + 1, [TS.exHold, TS.shWait]⟩ := by decide
    rw [e] at h
    exact h
  have hreach : Reach (init 2) ⟨EXCLUSIVE_HELD + 1, [TS.exHold, TS.shWait]⟩ :=
    Relation.ReflTransGen.tail (Relation.ReflTransGen.tail
      (Relation.ReflTransGen.tail (Relation.ReflTransGen.tail
        Relation.ReflTransGen.refl s1) s2) s3) s4
  have hbad := (hclaim _ hreach).1 (by decide)
  exact absurd hbad (by decide)

/-- Claim C1 (amended): in any reachable configuration, while a thread holds the
lock exclusively no thread holds it shared: the `EXCLUSIVE_HELD` bit is
set, and the (possibly positive) `SHARED_COUNT` subfield counts exactly
the over-registered shared acquirers that are still waiting inside
`lock(SHARED)`, never actual shared holders. -/
theorem c1_amended (n : Nat) (c : Cfg) (hn : n < 2 ^ 30) (h : Reach (init n) c)
    (i : Nat) (hi : c.threads.get? i = some TS.exHold) :
    c.threads.count TS.shHold = 0 ∧
    c.word &&& SHARED_COUNT_MASK = c.threads.count TS.shWait ∧
    c.word &&& EXCLUSIVE_HELD ≠ 0 := by
  obtain ⟨hlen, r, hr1, hword, hE, hES⟩ := inv_reach hn h
  have hpos : 0 < c.threads.count TS.exHold :=
    List.count_pos_iff.mpr (List.get?_mem hi)
  have hce : c.threads.count TS.exHold = 1 := by omega
  have hch : c.threads.count TS.shHold = 0 := hES hce
  have hsum := counts_le_length c.threads
  have hn2 : c.threads.count TS.shWait + c.threads.count TS.shHold < 2 ^ 30 := by omega
  refine ⟨hch, ?_, ?_⟩
  · rw [hword]
    have := land_mask (c.threads.count TS.exHold) r
      (c.threads.count TS.shWait + c.threads.count TS.shHold) hn2
    omega
  · rw [hword]
    have := land_held (c.threads.count TS.exHold) r
      (c.threads.count TS.shWait + c.threads.count TS.shHold) hE hr1 hn2
    omega

/-- Witness for C1 (amended): evaluated on the two-step schedule in which a
single thread acquires the lock exclusively. -/
theorem c1_amended_witness :
    (Cfg.mk EXCLUSIVE_HELD [TS.exHold]).threads.count TS.shHold = 0 ∧
    (Cfg.mk EXCLUSIVE_HELD [TS.exHold]).word &&& SHARED_COUNT_MASK =
      (Cfg.mk EXCLUSIVE_HELD [TS.exHold]).threads.count TS.shWait ∧
    (Cfg.mk EXCLUSIVE_HELD [TS.exHold]).word &&& EXCLUSIVE_HELD ≠ 0 := by
  have s1 : Step (init 1) ⟨0, [TS.exWait]⟩ := Step.startEx (init 1) 0 (by decide)
  have s2 : Step ⟨0, [TS.exWait]⟩ ⟨EXCLUSIVE_HELD, [TS.exHold]⟩ :=
    Step.exCas _ 0 (by decide) rfl
  exact c1_amended 1 ⟨EXCLUSIVE_HELD, [TS.exHold]⟩ (by norm_num)
    (Relation.ReflTransGen.tail (Relation.ReflTransGen.tail
      Relation.ReflTransGen.refl s1) s2) 0 (by decide)

/-! ### Claims C3, C6, C7, C10 -/

/-- Claim C10: a `Waiter` whose exception field is already non-null makes
`checkPredicate` report ready without invoking the predicate closure and
without modifying the record, so no unlocking thread's scan ever re-runs a
faulted waiter's predicate. -/
theorem c10_theorem (w : Waiter) (h : w.exception.isSome) :
    (checkPredicate w).ready = true ∧ (checkPredicate w).invoked = false ∧
      (checkPredicate w).waiter = w := by
  unfold checkPredicate
  rw [if_pos h]
  exact ⟨rfl, rfl, rfl⟩

/-- Witness for C10 at a waiter with a captured exception. -/
theorem c10_witness :
    (checkPredicate ⟨.ok false, some 3, false, 0⟩).ready = true ∧
      (checkPredicate ⟨.ok false, some 3, false, 0⟩).invoked = false ∧
      (checkPredicate ⟨.ok false, some 3, false, 0⟩).waiter = ⟨.ok false, some 3, false, 0⟩ :=
  c10_theorem ⟨.ok false, some 3, false, 0⟩ (by decide)

/-- Claim C3: in the `unlock(EXCLUSIVE)` waiter scan, when a waiter's
predicate is ready and the waiter has a timeout, the signaler CASes the
waiter's signal word from 0 to 1. On success (signal word was 0) it wakes
that waiter and unlock returns without modifying the mutex state word —
ownership handoff; on failure (the waiter already timed out and set its
signal word) it does not wake that waiter and continues scanning the rest
of the list. -/
theorem c3_theorem (word : Nat) (w : Waiter) (rest : List Waiter)
    (hready : (checkPredicate w).ready = true) (hto : w.hasTimeout = true) :
    (w.signal = 0 →
      scanWaiters (w :: rest) =
        ⟨some 0, { (checkPredicate w).waiter with signal := 1 } :: rest⟩ ∧
      (unlockExclusive word (w :: rest)).word = word ∧
      (unlockExclusive word (w :: rest)).handoff = some 0 ∧
      (unlockExclusive word (w :: rest)).wokeAllOnState = false) ∧
    (w.signal ≠ 0 →
      (scanWaiters (w :: rest)).handoff = (scanWaiters rest).handoff.map (· + 1) ∧
      (scanWaiters (w :: rest)).waiters =
        (checkPredicate w).waiter :: (scanWaiters rest).waiters) := by
  have hto' : (checkPredicate w).waiter.hasTimeout = true := by
    rw [checkPredicate_hasTimeout]; exact hto
  constructor
  · intro hs
    have hs' : (checkPredicate w).waiter.signal = 0 := by
      rw [checkPredicate_signal]; exact hs
    have hscan : scanWaiters (w :: rest) =
        ⟨some 0, { (checkPredicate w).waiter with signal := 1 } :: rest⟩ := by
      simp only [scanWaiters]
      rw [hready, hto', if_pos hs']
      simp
    refine ⟨hscan, ?_, ?_, ?_⟩ <;> simp [unlockExclusive, hscan]
  · intro hs
    have hs' : ¬ ((checkPredicate w).waiter.signal = 0) := by
      rw [checkPredicate_signal]; exact hs
    constructor <;>
      · simp only [scanWaiters]
        rw [hready, hto', if_neg hs']
        simp

/-- Witness for C3: a ready timeout waiter with signal word 0 receives the
handoff (left conjunct applied at `word = EXCLUSIVE_HELD`). -/
theorem c3_witness :
    scanWaiters [(⟨.ok true, none, true, 0⟩ : Waiter)] =
      ⟨some 0, [{ (checkPredicate ⟨.ok true, none, true, 0⟩).waiter with signal := 1 }]⟩ ∧
    (unlockExclusive EXCLUSIVE_HELD [(⟨.ok true, none, true, 0⟩ : Waiter)]).word =
      EXCLUSIVE_HELD ∧
    (unlockExclusive EXCLUSIVE_HELD [(⟨.ok true, none, true, 0⟩ : Waiter)]).handoff =
      some 0 ∧
    (unlockExclusive EXCLUSIVE_HELD [(⟨.ok true, none, true, 0⟩ : Waiter)]).wokeAllOnState =
      false :=
  (c3_theorem EXCLUSIVE_HELD ⟨.ok true, none, true, 0⟩ [] (by decide) rfl).1 rfl

/-- Claim C6: when the waiter scan of `unlock(EXCLUSIVE)` finds no waiter to
hand the lock to, the release clears `EXCLUSIVE_HELD` and
`EXCLUSIVE_REQUESTED` in a single fetch-and, and issues a wake-all on the
state word iff the pre-image had any bit set other than `EXCLUSIVE_HELD`
(a non-zero shared count or the request bit). -/
theorem c6_theorem (word : Nat) (ws : List Waiter) (hw : word < 2 ^ 32)
    (h : (scanWaiters ws).handoff = none) :
    unlockExclusive word ws =
      ⟨word &&& NOT32 (EXCLUSIVE_HELD ||| EXCLUSIVE_REQUESTED),
        (scanWaiters ws).waiters, none,
        decide (word &&& NOT32 EXCLUSIVE_HELD ≠ 0)⟩ ∧
    ((unlockExclusive word ws).wokeAllOnState = true ↔
      (0 < word &&& SHARED_COUNT_MASK ∨ word &&& EXCLUSIVE_REQUESTED ≠ 0)) := by
  have h1 : unlockExclusive word ws =
      ⟨word &&& NOT32 (EXCLUSIVE_HELD ||| EXCLUSIVE_REQUESTED),
        (scanWaiters ws).waiters, none,
        decide (word &&& NOT32 EXCLUSIVE_HELD ≠ 0)⟩ := by
    simp only [unlockExclusive, h]
  refine ⟨h1, ?_⟩
  rw [h1]
  obtain ⟨e, r, n, he, hr, hn, hd⟩ := word_decomp word hw
  have hnot : NOT32 EXCLUSIVE_HELD = 2 ^ 31 - 1 := by decide
  have hm : word &&& NOT32 EXCLUSIVE_HELD = 2 ^ 30 * r + n := by
    rw [hnot, Nat.and_pow_two_sub_one_eq_mod, hd]
    omega
  have hmask := land_mask e r n hn
  have hreq := land_requested e r n he hr hn
  rw [← hd] at hmask hreq
  simp only [hm, hmask, hreq, decide_eq_true_eq]
  omega

/-- Witness for C6 at `word = EXCLUSIVE_HELD + 1` (one over-registered
reader) with an empty waiter list: the wake-all fires. -/
theorem c6_witness :
    unlockExclusive (EXCLUSIVE_HELD + 1) [] =
      ⟨(EXCLUSIVE_HELD + 1) &&& NOT32 (EXCLUSIVE_HELD ||| EXCLUSIVE_REQUESTED),
        (scanWaiters []).waiters, none,
        decide ((EXCLUSIVE_HELD + 1) &&& NOT32 EXCLUSIVE_HELD ≠ 0)⟩ ∧
    ((unlockExclusive (EXCLUSIVE_HELD + 1) []).wokeAllOnState = true ↔
      (0 < (EXCLUSIVE_HELD + 1) &&& SHARED_COUNT_MASK ∨
        (EXCLUSIVE_HELD + 1) &&& EXCLUSIVE_REQUESTED ≠ 0)) :=
  c6_theorem (EXCLUSIVE_HELD + 1) [] (by norm_num [EXCLUSIVE_HELD]) rfl

/-- Claim C7: `unlock(SHARED)` decrements the state word by one; iff the
result equals exactly `EXCLUSIVE_REQUESTED` it attempts a CAS from that
value to 0, and it wakes all threads waiting on the state word iff that CAS
succeeds; in every other case (including CAS failure) it returns without
waking anyone. -/
theorem c7_theorem (word casView : Nat) :
    (unlockShared word casView).dec = (word + (2 ^ 32 - 1)) % 2 ^ 32 ∧
    ((unlockShared word casView).casAttempted = true ↔
      (unlockShared word casView).dec = EXCLUSIVE_REQUESTED) ∧
    ((unlockShared word casView).wokeAll = true ↔
      ((unlockShared word casView).dec = EXCLUSIVE_REQUESTED ∧
        casView = EXCLUSIVE_REQUESTED)) ∧
    ((unlockShared word casView).casSucceeded = true →
      (unlockShared word casView).stored = some 0) := by
  have hun : unlockShared word casView =
      if (word + (2 ^ 32 - 1)) % 2 ^ 32 = EXCLUSIVE_REQUESTED then
        (if casView = (word + (2 ^ 32 - 1)) % 2 ^ 32 then
          ⟨(word + (2 ^ 32 - 1)) % 2 ^ 32, true, true, some 0, true⟩
        else ⟨(word + (2 ^ 32 - 1)) % 2 ^ 32, true, false, none, false⟩)
      else ⟨(word + (2 ^ 32 - 1)) % 2 ^ 32, false, false, none, false⟩ := rfl
  by_cases h : (word + (2 ^ 32 - 1)) % 2 ^ 32 = EXCLUSIVE_REQUESTED
  · by_cases h2 : casView = (word + (2 ^ 32 - 1)) % 2 ^ 32
    · rw [hun, if_pos h, if_pos h2]
      refine ⟨rfl, ?_, ?_, fun _ => rfl⟩
      · constructor
        · intro _; exact h
        · intro _; rfl
      · constructor
        · intro _; exact ⟨h, by rw [h2, h]⟩
        · intro _; rfl
    · rw [hun, if_pos h, if_neg h2]
      refine ⟨rfl, ?_, ?_, ?_⟩
      · constructor
        · intro _; exact h
        · intro _; rfl
      · constructor
        · intro hfalse; exact absurd hfalse Bool.false_ne_true
        · rintro ⟨hd, hcv⟩
          exact absurd (by rw [hcv, ← h]) h2
      · intro hfalse; exact absurd hfalse Bool.false_ne_true
  · rw [hun, if_neg h]
    refine ⟨rfl, ?_, ?_, ?_⟩
    · constructor
      · intro hfalse; exact absurd hfalse Bool.false_ne_true
      · intro hd; exact absurd hd h
    · constructor
      · intro hfalse; exact absurd hfalse Bool.false_ne_true
      · rintro ⟨hd, hcasv⟩; exact absurd hd h
    · intro hfalse; exact absurd hfalse Bool.false_ne_true

/-- Witness for C7: a shared holder releasing with the word at
`EXCLUSIVE_REQUESTED + 1` and no interference: the CAS succeeds and the
wake-all fires. -/
theorem c7_witness :
    (unlockShared (EXCLUSIVE_REQUESTED + 1) EXCLUSIVE_REQUESTED).dec =
      ((EXCLUSIVE_REQUESTED + 1) + (2 ^ 32 - 1)) % 2 ^ 32 ∧
    ((unlockShared (EXCLUSIVE_REQUESTED + 1) EXCLUSIVE_REQUESTED).casAttempted = true ↔
      (unlockShared (EXCLUSIVE_REQUESTED + 1) EXCLUSIVE_REQUESTED).dec =
        EXCLUSIVE_REQUESTED) ∧
    ((unlockShared (EXCLUSIVE_REQUESTED + 1) EXCLUSIVE_REQUESTED).wokeAll = true ↔
      ((unlockShared (EXCLUSIVE_REQUESTED + 1) EXCLUSIVE_REQUESTED).dec =
        EXCLUSIVE_REQUESTED ∧ EXCLUSIVE_REQUESTED = EXCLUSIVE_REQUESTED)) ∧
    ((unlockShared (EXCLUSIVE_REQUESTED + 1) EXCLUSIVE_REQUESTED).casSucceeded = true →
      (unlockShared (EXCLUSIVE_REQUESTED + 1) EXCLUSIVE_REQUESTED).stored = some 0) :=
  c7_theorem (EXCLUSIVE_REQUESTED + 1) EXCLUSIVE_REQUESTED

/-! ### Claims C5, C4, C2 -/

/-- Claim C5 counterexample: when the predicate is true at the very first
check, `lockWhen` does return holding the lock without blocking — but the
`Waiter` record is appended **before** the first predicate check
(mutex.c++ lines 273-278), so "without appending a Waiter record" is false:
the run with a true first check has `waiterAdded = true`. -/
theorem c5_counterexample :
    ¬ (∀ (hasTO : Bool) (evs : List LoopEvent) (r : LWResult),
        lockWhen (.ok true) hasTO evs = some r →
        r.lockedAtExit = true ∧ r.waited = false ∧ r.waiterAdded = false) := by
  intro h
  have := h false [] ⟨none, true, true, true, false, false, false⟩ rfl
  exact absurd this.2.2 (by decide)

/-- Claim C5 (amended): when the predicate is true at the very first check
under the lock, `lockWhen` returns normally holding the exclusive lock and
never blocks; a `Waiter` record is appended before that check and removed
again before returning, all inside the same exclusive critical section, so
the waiter list is restored and no other thread can observe the record. -/
theorem c5_amended (hasTO : Bool) (evs : List LoopEvent) :
    lockWhen (.ok true) hasTO evs =
      some ⟨none, true, true, true, false, false, false⟩ := rfl

/-- Helper: any fault propagated out of the wait loop was observed through a
signal transfer, and leaves the caller unlocked with the waiter removed. -/
theorem lockWhenWait_raise (hasTO : Bool) (evs : List LoopEvent) (r : LWResult)
    (e : Exn) (hrun : lockWhenWait hasTO evs = some r) (hraise : r.raised = some e) :
    r.lockedAtExit = false ∧ r.waiterRemoved = true ∧ r.viaTransfer = true ∧
    ∃ ev ∈ evs, ev.signalAtLoad ≠ 0 ∧ ev.excAtLoad = some e := by
  induction evs with
  | nil => simp [lockWhenWait] at hrun
  | cons ev rest ih =>
    by_cases h1 : (ev.timedOut && !hasTO) = true
    · rw [lockWhenWait, if_pos h1] at hrun
      exact absurd hrun (by simp)
    · by_cases h2 : (ev.timedOut && decide (ev.signalAtCas = 0)) = true
      · rw [lockWhenWait, if_neg h1, if_pos h2] at hrun
        obtain rfl : (⟨none, true, true, true, true, true, false⟩ : LWResult) = r := by
          injection hrun
        simp at hraise
      · by_cases h3 : ev.signalAtLoad ≠ 0
        · cases hexc : ev.excAtLoad with
          | some e0 =>
            rw [lockWhenWait, if_neg h1, if_neg h2, if_pos h3, hexc] at hrun
            obtain rfl : (⟨some e0, false, true, true, true, false, true⟩ : LWResult) = r := by
              injection hrun
            obtain rfl : e0 = e := by simpa using hraise
            exact ⟨rfl, rfl, rfl, ev, by simp, h3, hexc⟩
          | none =>
            rw [lockWhenWait, if_neg h1, if_neg h2, if_pos h3, hexc] at hrun
            obtain rfl : (⟨none, true, true, true, true, false, true⟩ : LWResult) = r := by
              injection hrun
            simp at hraise
        · rw [lockWhenWait, if_neg h1, if_neg h2, if_neg h3] at hrun
          obtain ⟨g1, g2, g3, ev2, hmem, g4, g5⟩ := ih hrun
          exact ⟨g1, g2, g3, ev2, List.mem_cons_of_mem _ hmem, g4, g5⟩

/-- Claim C2 counterexample: the claim ("every predicate fault is captured
into the Waiter and re-raised in the caller exactly once") fails in two
concrete executions.
Run A — the fault occurs at the waiting thread's own first check: it is
re-raised directly (with the lock released and the waiter removed by the
unwind handlers) but never captured into the Waiter.
Run B — a signaler's `checkPredicate` captures the fault, but the waiter's
timeout CAS wins the race: the signaler's 0→1 CAS fails (the scan skips the
waiter, waking nobody), and the waiter's timeout path re-acquires the lock
and returns normally without consulting the exception field (mutex.c++
lines 307-314), so the captured fault is re-raised zero times. -/
theorem c2_counterexample :
    (lockWhen (.throws 7) false [] =
      some ⟨some 7, false, true, true, false, false, false⟩) ∧
    (scanWaiters [⟨.throws 9, none, true, 1⟩] =
      ⟨none, [⟨.throws 9, some 9, true, 1⟩]⟩) ∧
    (lockWhenWait true [⟨true, 0, 0, none⟩] =
      some ⟨none, true, true, true, true, true, false⟩) := by
  refine ⟨rfl, by decide, rfl⟩

/-- Claim C2 (amended): whenever `lockWhen` propagates a fault it propagates
exactly one, the Waiter has been removed, and the mutex has been released
before the fault reaches the caller; the fault is either the waiting
thread's own first predicate check faulting (propagated directly, never
captured into the Waiter) or an exception captured into the Waiter by a
signaler and observed through the signal-transfer path. (A captured fault
is discarded, not re-raised, when the waiter's timeout CAS wins the race
against the signaler.) -/
theorem c2_amended (fc : PredResult) (hasTO : Bool) (evs : List LoopEvent)
    (r : LWResult) (e : Exn) (hrun : lockWhen fc hasTO evs = some r)
    (hraise : r.raised = some e) :
    r.lockedAtExit = false ∧ r.waiterRemoved = true ∧
    (fc = .throws e ∨ ∃ ev ∈ evs, ev.signalAtLoad ≠ 0 ∧ ev.excAtLoad = some e) := by
  cases fc with
  | throws e0 =>
    obtain rfl : (⟨some e0, false, true, true, false, false, false⟩ : LWResult) = r := by
      injection hrun
    obtain rfl : e0 = e := by simpa using hraise
    exact ⟨rfl, rfl, Or.inl rfl⟩
  | ok b =>
    cases b with
    | true =>
      obtain rfl : (⟨none, true, true, true, false, false, false⟩ : LWResult) = r := by
        injection hrun
      simp at hraise
    | false =>
      obtain ⟨h1, h2, _, hex⟩ := lockWhenWait_raise hasTO evs r e hrun hraise
      exact ⟨h1, h2, Or.inr hex⟩

/-- Witness for C2 (amended): the first predicate check throws exception 5;
the fault is propagated with the lock released and the waiter removed. -/
theorem c2_amended_witness :
    (⟨some 5, false, true, true, false, false, false⟩ : LWResult).lockedAtExit = false ∧
    (⟨some 5, false, true, true, false, false, false⟩ : LWResult).waiterRemoved = true ∧
    (PredResult.throws 5 = .throws 5 ∨
      ∃ ev ∈ ([] : List LoopEvent), ev.signalAtLoad ≠ 0 ∧ ev.excAtLoad = some 5) :=
  c2_amended (.throws 5) false [] ⟨some 5, false, true, true, false, false, false⟩ 5 rfl rfl

/-- Claim C4: when the futex wait of `lockWhen` returns `ETIMEDOUT`, the
thread CASes its own signal word from 0 to 1. If the CAS succeeds, no
transfer occurred: the thread re-acquires the exclusive lock itself and
returns normally holding it. If the CAS fails, a signaler beat the timeout:
the thread accepts the transfer (no self re-acquisition), observing the
(monotone, hence still non-zero) signal word at the subsequent load; if it
returns normally it holds the exclusive lock. -/
theorem c4_theorem (hasTO : Bool) (ev : LoopEvent) (rest : List LoopEvent)
    (hto : hasTO = true) (htimed : ev.timedOut = true) :
    (ev.signalAtCas = 0 →
      lockWhenWait hasTO (ev :: rest) =
        some ⟨none, true, true, true, true, true, false⟩) ∧
    (ev.signalAtCas ≠ 0 → ev.signalAtLoad ≠ 0 →
      ∃ r, lockWhenWait hasTO (ev :: rest) = some r ∧
        r.selfAcquired = false ∧ r.viaTransfer = true ∧ r.waited = true ∧
        (r.raised = none → r.lockedAtExit = true)) := by
  subst hto
  constructor
  · intro hcas
    simp [lockWhenWait, htimed, hcas]
  · intro hcas hload
    cases hexc : ev.excAtLoad with
    | some e =>
      refine ⟨⟨some e, false, true, true, true, false, true⟩, ?_, rfl, rfl, rfl, by simp⟩
      simp [lockWhenWait, htimed, hcas, hload, hexc]
    | none =>
      refine ⟨⟨none, true, true, true, true, false, true⟩, ?_, rfl, rfl, rfl, by simp⟩
      simp [lockWhenWait, htimed, hcas, hload, hexc]

/-- Witness for C4: a timeout with the signal word still 0 — the CAS
succeeds and the thread self-acquires. -/
theorem c4_witness :
    lockWhenWait true [⟨true, 0, 0, none⟩] =
      some ⟨none, true, true, true, true, true, false⟩ :=
  (c4_theorem true ⟨true, 0, 0, none⟩ [] rfl rfl).1 rfl

/-! ### Claim C8 -/

/-- Claim C8: in the futex `Once::runOnce`, a faulting initializer swaps the
state word back to `UNINITIALIZED`, wakes all iff the swap's pre-image was
`INITIALIZING_WITH_WAITERS`, and re-raises the fault; a waiter that wakes
and reloads the state as `UNINITIALIZED` restarts the whole protocol from
the initial CAS, so a later caller (third conjunct) can still initialize
successfully. -/
theorem c8_theorem (e : Exn) (pre : Nat) (rest : List Nat) (initb : InitOutcome) :
    (runOnce (.fault e) .start (UNINITIALIZED :: pre :: rest) =
      some ⟨some e, true, decide (pre = INITIALIZING_WITH_WAITERS),
        some UNINITIALIZED, 0⟩) ∧
    (runOnce initb (.waiter INITIALIZING_WITH_WAITERS) (UNINITIALIZED :: rest) =
      (runOnce initb .start rest).map fun r => { r with restarts := r.restarts + 1 }) ∧
    (runOnce .success .start (UNINITIALIZED :: pre :: rest) =
      some ⟨none, true, decide (pre = INITIALIZING_WITH_WAITERS),
        some INITIALIZED, 0⟩) := by
  refine ⟨rfl, ?_, rfl⟩
  rw [runOnce.eq_def]
  simp [UNINITIALIZED, INITIALIZING, INITIALIZING_WITH_WAITERS, INITIALIZED]

/-! ### Claim C9 -/

/-- Claim C9 counterexample: the three sleep computations do round up, but
the tick deadline is computed from the timeout truncated to whole
milliseconds (`*t / kj::MILLISECONDS` before the tick conversion, line 525),
so the wait **can** complete earlier than the requested deadline. Concrete
input: timeout 1.5 ms (1500000 ns), a 1000 Hz performance counter (1 tick
= 1 ms), wait started at tick 0. The computed deadline is tick 1; a
spurious wake at tick 1 takes the "Oops, already timed out" return
(`recomputeSleepMs … = none`) after only 1 ms — earlier than the requested
1.5 ms (1 tick · 10⁹ < 1500000 ns · 1000 Hz). -/
theorem c9_counterexample :
    recomputeSleepMs (endTimeTicks 1500000 1000 0) 1 1000 = none ∧
    1 * 1000000000 < 1500000 * 1000 := by
  exact ⟨by decide, by norm_num⟩

/-- Claim C9 (amended): each of the three sleep computations rounds up —
the initial millisecond sleep covers the full timeout (when it fits in the
`DWORD`), the tick deadline covers the whole-millisecond part of the
timeout, and a recomputed sleep covers the remaining ticks (when it fits in
the `DWORD`); the "already timed out" return happens only at or past the
computed tick deadline. The deadline itself, however, is truncated to whole
milliseconds, so the wait can still end up to one millisecond early. -/
theorem c9_amended (t freq startQ endQ nowQ : Nat) (hfreq : 0 < freq) :
    (t / 1000000 + 1 < 2 ^ 32 → t ≤ initialSleepMs t * 1000000) ∧
    (t / 1000000 * freq ≤ (endTimeTicks t freq startQ - startQ) * 1000) ∧
    (∀ m, recomputeSleepMs endQ nowQ freq = some m →
      nowQ < endQ ∧ ((endQ - nowQ) * 1000 / freq + 1 < 2 ^ 32 →
        (endQ - nowQ) * 1000 ≤ m * freq)) ∧
    (recomputeSleepMs endQ nowQ freq = none → endQ ≤ nowQ) := by
  refine ⟨?_, ?_, ?_, ?_⟩
  · intro hfit
    unfold initialSleepMs
    split_ifs <;> omega
  · show t / 1000000 * freq ≤
      (startQ + t / 1000000 * freq / 1000 +
        (if t / 1000000 * freq % 1000 > 0 then 1 else 0) - startQ) * 1000
    generalize t / 1000000 * freq = N
    split_ifs <;> omega
  · intro m hm
    unfold recomputeSleepMs at hm
    split at hm
    · rename_i hgt
      refine ⟨hgt, ?_⟩
      intro hfit
      obtain rfl : ((endQ - nowQ) * 1000 / freq +
          if (endQ - nowQ) * 1000 % freq > 0 then 1 else 0) % 2 ^ 32 = m := by
        injection hm
      have hdm := Nat.div_add_mod ((endQ - nowQ) * 1000) freq
      have hlt : (endQ - nowQ) * 1000 % freq < freq := Nat.mod_lt _ hfreq
      have hsmall : (endQ - nowQ) * 1000 / freq +
          (if (endQ - nowQ) * 1000 % freq > 0 then 1 else 0) < 2 ^ 32 := by
        split_ifs <;> omega
      rw [Nat.mod_eq_of_lt hsmall]
      have hexp : ((endQ - nowQ) * 1000 / freq +
          (if (endQ - nowQ) * 1000 % freq > 0 then 1 else 0)) * freq =
          (endQ - nowQ) * 1000 / freq * freq +
          (if (endQ - nowQ) * 1000 % freq > 0 then 1 else 0) * freq := by
        ring
      have hcomm : (endQ - nowQ) * 1000 / freq * freq =
          freq * ((endQ - nowQ) * 1000 / freq) := Nat.mul_comm _ _
      split_ifs at hexp ⊢ <;> omega
    · simp at hm
  · intro hnone
    unfold recomputeSleepMs at hnone
    split at hnone
    · simp at hnone
    · omega

/-- Witness for C9 (amended), at timeout 1.5 ms, frequency 1000, one
remaining tick. -/
theorem c9_amended_witness :
    1500000 ≤ initialSleepMs 1500000 * 1000000 ∧
    1500000 / 1000000 * 1000 ≤ (endTimeTicks 1500000 1000 0 - 0) * 1000 ∧
    (2 - 1) * 1000 ≤ 1 * 1000 := by
  have h := c9_amended 1500000 1000 0 2 1 (by norm_num)
  exact ⟨h.1 (by norm_num), h.2.1, (h.2.2.1 1 (by decide)).2 (by norm_num)⟩

end KjMutex
